import Mathlib

/-!
Verification development for the line-oriented YAML merge engine of
`serverless-merge` (src/src/merge.js).

Text is modelled as `List Char`.  Every definition below is a direct
translation of the corresponding JavaScript in src/src/merge.js; file
contents live in an abstract read-only filesystem `FS : List Char →
Option (List Char)` (a path exists iff it maps to `some` content, which
models `fs.existsSync` / `fs.readFileSync`).  The `yaml.load` call in
`YamlDocument.load` (merge.js:134) throws on YAML-invalid content,
aborting the merge; js-yaml is an external library, so its parser is
abstracted as an oracle `YamlOk` on the content — success/failure is
all the merge pipeline observes, since the parse result
(`parsedContent`) is never consumed.  Recursion
over the file graph (which the source performs by unbounded recursive
`processMerge` calls) is modelled with an explicit fuel parameter; the
dedicated error `MergeErr.outOfFuel` marks a run that would still be
recursing when the fuel ends, i.e. non-termination of the source.
-/

/-- Whitespace class used by the JavaScript regexes (`\s`) and by
`String.prototype.trim` / `trimLeft`.  Exotic unicode space characters
are not modelled. -/
def jsWS (c : Char) : Bool :=
  c == ' ' || c == '\t' || c == '\n' || c == '\r' || c == '\x0b' || c == '\x0c' || c == ' '

/-- `s.trimLeft()` (also the `^(\s*)` indent matcher's complement). -/
def trimLeftL (l : List Char) : List Char := l.dropWhile jsWS

/-- Remove trailing whitespace. -/
def trimRight (l : List Char) : List Char := (l.reverse.dropWhile jsWS).reverse

/-- `s.trim()`. -/
def trimL (l : List Char) : List Char := trimRight (trimLeftL l)

/-- `hay.includes(needle)` — substring test, scanning left to right. -/
def strIncludes : List Char → List Char → Bool
  | [], needle => needle.isPrefixOf []
  | c :: rest, needle => needle.isPrefixOf (c :: rest) || strIncludes rest needle

/-- All characters of `l` are whitespace. -/
def allWS (l : List Char) : Bool := l.all jsWS

/-- Prepend a character to the first piece of a split result. -/
def prependHead (c : Char) : List (List Char) → List (List Char)
  | [] => [[c]]
  | h :: t => (c :: h) :: t

/-- `content.split(/\r?\n/)` — a `"\r\n"` pair or a bare `'\n'`
separates lines; a lone `'\r'` does not. -/
def splitLines : List Char → List (List Char)
  | [] => [[]]
  | '\r' :: '\n' :: rest => [] :: splitLines rest
  | '\n' :: rest => [] :: splitLines rest
  | c :: rest => prependHead c (splitLines rest)

/-- `array.join('\n')` (`os.EOL` on the POSIX platform the tool targets). -/
def joinNL : List (List Char) → List Char
  | [] => []
  | [x] => x
  | x :: xs => x ++ '\n' :: joinNL xs

/-- One physical line, as parsed by the `YamlLine` constructor.  The
derived fields are stored (not recomputed from `raw`), exactly as the
JavaScript class stores them; `clone` below re-derives them from the
line's current `raw` and then overrides the indent fields. -/
structure YamlLine where
  raw : List Char
  indent : List Char
  content : List Char
  isComment : Bool
  isEmpty : Bool
  hasTag : Bool
  hasCloudFormation : Bool
  key : Option (List Char)
  isList : Bool
  indentLevel : Nat
  isMergeDirective : Bool
deriving DecidableEq

/-- The `${file(` token that `isMergeTag` searches for. -/
def fileTok : List Char := ("$\x7bfile(").toList

/-- `YamlLine.isMergeTag`, as a function of the (already trimmed)
`content` field; the method trims its input once more. -/
def isMergeTag (content : List Char) : Bool :=
  let c := trimL content
  if c = ("merge:").toList ∨ c = ("$<<:").toList then true
  else if strIncludes c fileTok then
    (("merge:").toList.isPrefixOf c || ("$<<:").toList.isPrefixOf c ||
      ("- ").toList.isPrefixOf c)
  else false

/-- `YamlLine.extractKey`: the `^([^:]+):` match on the trimmed content,
`null` for empty and comment lines or when the pattern fails. -/
def extractKeyF (isEmptyB isCommentB : Bool) (content : List Char) : Option (List Char) :=
  if isEmptyB || isCommentB then none
  else
    let pre := content.takeWhile (· ≠ ':')
    if pre.isEmpty then none
    else if pre.length < content.length then some (trimL pre) else none

/-- The `YamlLine` constructor. -/
def mkYamlLine (raw : List Char) : YamlLine :=
  let indent := raw.takeWhile jsWS
  let content := trimL raw
  let isCommentB := ("#").toList.isPrefixOf content
  let isEmptyB := content.isEmpty
  { raw := raw
    indent := indent
    content := content
    isComment := isCommentB
    isEmpty := isEmptyB
    hasTag := ("!").toList.isPrefixOf content
    hasCloudFormation := strIncludes content (("Fn::").toList) || strIncludes content (("!Ref").toList)
    key := extractKeyF isEmptyB isCommentB content
    isList := ("-").toList.isPrefixOf content
    indentLevel := indent.length / 2
    isMergeDirective := isMergeTag content }

/-- `YamlLine.isCapitalizedKey`: `/^[A-Z]/.test(this.key)` (false on a
`null` key). -/
def isCapitalizedKey (l : YamlLine) : Bool :=
  match l.key with
  | some (c :: _) => decide ('A' ≤ c) && decide (c ≤ 'Z')
  | _ => false

/-- `YamlLine.clone(newIndent?)`: re-parse the current `raw`, then (when
an indent is supplied) substitute it, keeping every other derived field
from the re-parse. -/
def clone (l : YamlLine) (newIndent : Option (List Char)) : YamlLine :=
  let base := mkYamlLine l.raw
  match newIndent with
  | none => base
  | some w => { base with raw := w ++ trimLeftL l.raw, indent := w, indentLevel := w.length / 2 }

/-- The `{path, section}` pair of a parsed `${file(...)}` token
(`match[0]`, the raw matched text, is stored by the source but never
read, and is omitted). -/
structure FileRef where
  path : List Char
  /-- the `section` property (`section` is a Lean keyword) -/
  sect : Option (List Char)
deriving DecidableEq

/-- The prefix-strip `content.replace(/^($<<:|merge:|\s*-\s*)/, '')` in
`parseFileReference`.  In a JavaScript regex `$` is the end-of-input
anchor, so the `$<<:` alternative can never match and only the literal
`merge:` or a whitespace-wrapped `-` is removed. -/
def stripDirectiveHead (c : List Char) : List Char :=
  if ("merge:").toList.isPrefixOf c then c.drop 6
  else
    match c.dropWhile jsWS with
    | '-' :: rest => rest.dropWhile jsWS
    | _ => c

/-- Attempt of `/\$\{file\(([^)]+)\)(?::([^}]+))?\}/` at the head of
`l`.  The character classes exclude the closing delimiter, so the greedy
captures are the `takeWhile` runs and the regex engine never needs to
backtrack into them. -/
def tokenAt (l : List Char) : Option FileRef :=
  if fileTok.isPrefixOf l then
    let after := l.drop 7
    let path := after.takeWhile (· ≠ ')')
    let rest := after.dropWhile (· ≠ ')')
    if path.isEmpty then none
    else
      match rest with
      | ')' :: rest2 =>
        (match rest2 with
         | ':' :: rest3 =>
           let sec := rest3.takeWhile (· ≠ '\x7d')
           let rest4 := rest3.dropWhile (· ≠ '\x7d')
           if sec.isEmpty then none
           else
             (match rest4 with
              | '\x7d' :: _ => some { path := path, sect := some sec }
              | _ => none)
         | '\x7d' :: _ => some { path := path, sect := none }
         | _ => none)
      | _ => none
  else none

/-- Unanchored search: the first position where the token pattern
matches, scanning left to right. -/
def findFileToken : List Char → Option FileRef
  | [] => none
  | c :: rest =>
    match tokenAt (c :: rest) with
    | some r => some r
    | none => findFileToken rest

/-- `YamlDocument.parseFileReference(content)`. -/
def parseFileReference (content : List Char) : Option FileRef :=
  findFileToken (trimL (stripDirectiveHead content))

/-- Abstract filesystem: a path exists iff it maps to some content. -/
abbrev FS := List Char → Option (List Char)

/-- Whether `yaml.load(content, {schema})` succeeds on the given
content (merge.js:134).  js-yaml is an external library, so its parser
is abstracted as an oracle: `load()` throws — aborting the whole merge
— exactly when the oracle rejects the content, and nothing else of the
parse result is ever read by the merge pipeline. -/
abbrev YamlOk := List Char → Bool

/-- POSIX absolute-path test (`path.isAbsolute`). -/
def isAbsolutePath (p : List Char) : Bool :=
  match p with
  | '/' :: _ => true
  | _ => false

/-- `path.resolve(base, rel)`.  Path normalization (collapsing `..` and
`.`) is not modelled: candidate paths are compared and looked up
syntactically, which is faithful as long as the filesystem map is
queried with the same syntax. -/
def pathResolve (base rel : List Char) : List Char :=
  if isAbsolutePath rel then rel else base ++ '/' :: rel

/-- `path.dirname` (enough of it for the documents exercised here). -/
def dirname (p : List Char) : List Char :=
  match p.reverse.dropWhile (· ≠ '/') with
  | [] => ("." ).toList
  | ['/'] => ("/").toList
  | _ :: rest => rest.reverse

/-- The `for (const searchPath of searchPaths)` loop body of
`resolveFilePath`: first candidate that exists wins. -/
def firstExisting (fs : FS) : List (List Char) → Option (List Char)
  | [] => none
  | p :: rest => if (fs p).isSome then some p else firstExisting fs rest

inductive MergeErr where
  | circularReference
  | unresolvableReference
  | ioFailure
  | outOfFuel
deriving DecidableEq

/-- `YamlDocument.resolveFilePath(relativePath)`: the candidate list is
built with a `null` placeholder for the absolute-path entry and then
`.filter(Boolean)`-ed, exactly as in the source. -/
def resolveFilePath (fs : FS) (baseDir cwd rel : List Char) : Except MergeErr (List Char) :=
  let searchPaths : List (Option (List Char)) :=
    [ if isAbsolutePath rel then some rel else none,
      some (pathResolve baseDir rel),
      some (pathResolve (pathResolve baseDir (("..").toList)) rel),
      some (pathResolve cwd rel),
      some (pathResolve (pathResolve cwd (("serverless").toList)) rel),
      some (pathResolve (pathResolve cwd (("src").toList)) rel),
      some (pathResolve (pathResolve cwd (("config").toList)) rel) ]
  match firstExisting fs (searchPaths.filterMap id) with
  | some p => .ok p
  | none => .error .unresolvableReference

/-- `sectionPath.split('.')[0]`. -/
def firstDotSegment (s : List Char) : List Char := s.takeWhile (· ≠ '.')

/-- The scan loop of `YamlDocument.extractSection`.  Note that the
`line.key === currentSection` test comes before the `inSection` test,
so a matching key line inside the section is skipped and resets
`sectionIndent`. -/
def extractGo (cur : List Char) : List YamlLine → Bool → List Char → List YamlLine
  | [], _, _ => []
  | l :: rest, inSection, sectionIndent =>
    if l.key = some cur then extractGo cur rest true l.indent
    else if inSection then
      if !l.isEmpty && !l.isComment && decide (l.indent.length ≤ sectionIndent.length) then []
      else l :: extractGo cur rest inSection sectionIndent
    else extractGo cur rest inSection sectionIndent

/-- `YamlDocument.extractSection(lines, sectionPath)`. -/
def extractSection (lines : List YamlLine) (sectionPath : List Char) : List YamlLine :=
  extractGo (firstDotSegment sectionPath) lines false []

/-- The section extractor as the specification describes it: everything
strictly after the first line whose key is the first dot-segment, up to
(excluding) the first subsequent non-empty non-comment line whose
indent is at most the key line's indent; empty when the key is never
found. -/
def extractSectionClaim (lines : List YamlLine) (sectionPath : List Char) : List YamlLine :=
  let cur := firstDotSegment sectionPath
  match lines.dropWhile (fun l => !decide (l.key = some cur)) with
  | [] => []
  | k :: post =>
    post.takeWhile (fun l => l.isEmpty || l.isComment || decide (k.indent.length < l.indent.length))

/-- JavaScript truthiness of `fileRef.section` (`undefined` and the
empty string are falsy). -/
def sectionTruthy : Option (List Char) → Bool
  | none => false
  | some s => !s.isEmpty

/-- `section.match(/^[A-Z]/)` as a boolean. -/
def capFirst : List Char → Bool
  | c :: _ => decide ('A' ≤ c) && decide (c ≤ 'Z')
  | [] => false

/-- `fileRef.section && fileRef.section.match(/^[A-Z]/)`. -/
def sectionCap (s : Option (List Char)) : Bool :=
  sectionTruthy s && capFirst (s.getD [])

/-- Blank-line collapsing of the capitalized-section branch
(`processMerge` lines 206-217): runs of blanks collapse to one. -/
def collapseBlankRuns (lastLineEmpty : Bool) : List YamlLine → List YamlLine
  | [] => []
  | l :: rest =>
    if l.isEmpty then
      if lastLineEmpty then collapseBlankRuns true rest
      else l :: collapseBlankRuns true rest
    else l :: collapseBlankRuns false rest

/-- `!arr[i].isEmpty` guarded by bounds, for the index-based filter. -/
def nonEmptyAt (arr : List YamlLine) (i : Nat) : Bool :=
  match arr.get? i with
  | some l => !l.isEmpty
  | none => false

/-- Keep-test of the non-capitalized blank filter (`processMerge` lines
220-226): drop a blank line only when it is strictly interior with
non-blank neighbours. -/
def keepLine (arr : List YamlLine) (i : Nat) (l : YamlLine) : Bool :=
  if l.isEmpty then
    !(decide (0 < i) && decide (i + 1 < arr.length) && nonEmptyAt arr (i - 1) && nonEmptyAt arr (i + 1))
  else true

def dropInteriorBlanksGo (arr : List YamlLine) : Nat → List YamlLine → List YamlLine
  | _, [] => []
  | i, l :: rest =>
    if keepLine arr i l then l :: dropInteriorBlanksGo arr (i + 1) rest
    else dropInteriorBlanksGo arr (i + 1) rest

def dropInteriorBlanks (arr : List YamlLine) : List YamlLine :=
  dropInteriorBlanksGo arr 0 arr

/-- `'  '.repeat(n)`. -/
def twoSpaces (n : Nat) : List Char := List.replicate (2 * n) ' '

/-- The tail of the per-line reindent map (`processMerge` lines
261-274), reached when no section branch returned: the list-item step
and the final catch-all, each with a capitalization split whose two arms
are textually identical in the source. -/
def reindentCont (sec : Option (List Char)) (pI : List Char) (l : YamlLine) : YamlLine :=
  if l.isList then
    if sectionCap sec then clone l (some (pI ++ l.indent))
    else clone l (some (pI ++ l.indent))
  else
    if sectionCap sec then clone l (some (pI ++ twoSpaces l.indentLevel))
    else clone l (some (pI ++ twoSpaces l.indentLevel))

/-- The per-line reindent map of `processMerge` (lines 229-275). -/
def reindentLine (sec : Option (List Char)) (pI : List Char) (l : YamlLine) : YamlLine :=
  if l.isEmpty || l.isComment then clone l none
  else if sectionTruthy sec then
    if capFirst (sec.getD []) then
      if decide (0 < l.indent.length) then
        let newIndent := if decide (0 < l.indent.length) then pI.take (pI.length - 2) else pI
        clone l (some (newIndent ++ l.indent))
      else if decide (sec = l.key) && isCapitalizedKey l then clone l (some pI)
      else reindentCont sec pI l
    else
      if decide (l.key = sec) then clone l (some pI)
      else if sectionTruthy sec && !capFirst (sec.getD []) then clone l (some pI)
      else clone l (some (pI ++ l.indent.drop 2))
  else reindentCont sec pI l

/-- Variant of `reindentCont` in which the list-item step does not split
on section capitalization (the two source arms compute the same
expression).  Used only to state the equivalence claimed in §4.4/§9. -/
def reindentContNoSplit (sec : Option (List Char)) (pI : List Char) (l : YamlLine) : YamlLine :=
  if l.isList then clone l (some (pI ++ l.indent))
  else
    if sectionCap sec then clone l (some (pI ++ twoSpaces l.indentLevel))
    else clone l (some (pI ++ twoSpaces l.indentLevel))

/-- `reindentLine` with the no-split list-item step. -/
def reindentLineNoSplit (sec : Option (List Char)) (pI : List Char) (l : YamlLine) : YamlLine :=
  if l.isEmpty || l.isComment then clone l none
  else if sectionTruthy sec then
    if capFirst (sec.getD []) then
      if decide (0 < l.indent.length) then
        let newIndent := if decide (0 < l.indent.length) then pI.take (pI.length - 2) else pI
        clone l (some (newIndent ++ l.indent))
      else if decide (sec = l.key) && isCapitalizedKey l then clone l (some pI)
      else reindentContNoSplit sec pI l
    else
      if decide (l.key = sec) then clone l (some pI)
      else if sectionTruthy sec && !capFirst (sec.getD []) then clone l (some pI)
      else clone l (some (pI ++ l.indent.drop 2))
  else reindentContNoSplit sec pI l

/-- The scan loop of `YamlDocument.merge()` (lines 277-312), with the
recursive `processMerge` supplied as the function argument `f`
(instantiated below with `processMergeF` over the child merge).  A
blank line is pushed only after a non-blank one; comments pass through;
a directive line with a parseable reference is replaced by `f`'s
result; a directive line whose reference does not parse reaches neither
`push` (the `if (fileRef)` body is skipped and the final
`if (!line.isMergeDirective)` guard is false) and is dropped. -/
def mergeLoopF (f : FileRef → List Char → Except MergeErr (List YamlLine)) :
    Bool → List YamlLine → Except MergeErr (List YamlLine)
  | _, [] => .ok []
  | lastLineEmpty, l :: rest =>
    if l.isEmpty then
      if lastLineEmpty then mergeLoopF f true rest
      else
        match mergeLoopF f true rest with
        | .ok out => .ok (l :: out)
        | .error e => .error e
    else if l.isComment then
      match mergeLoopF f false rest with
      | .ok out => .ok (l :: out)
      | .error e => .error e
    else if l.isMergeDirective then
      match parseFileReference l.content with
      | some ref =>
        (match f ref l.indent with
         | .ok merged =>
           (match mergeLoopF f false rest with
            | .ok out => .ok (merged ++ out)
            | .error e => .error e)
         | .error e => .error e)
      | none => mergeLoopF f false rest
    else
      match mergeLoopF f false rest with
      | .ok out => .ok (l :: out)
      | .error e => .error e

/-- `YamlDocument.processMerge(fileRef, parentIndent)` (lines 192-275),
with the fully-merged child document supplied by `md` (the recursive
merge at the resolved path).  Extraction, the section-kind dependent
blank filter, and the per-line reindent follow the source order. -/
def processMergeF (md : List Char → Except MergeErr (List YamlLine)) (fs : FS)
    (baseDir cwd : List Char) (ref : FileRef) (parentIndent : List Char) :
    Except MergeErr (List YamlLine) :=
  match resolveFilePath fs baseDir cwd ref.path with
  | .error e => .error e
  | .ok resolvedPath =>
    match md resolvedPath with
    | .error e => .error e
    | .ok subLines =>
      let mergedLines := if sectionTruthy ref.sect then extractSection subLines (ref.sect.getD []) else subLines
      let filtered :=
        if sectionCap ref.sect then collapseBlankRuns false mergedLines
        else dropInteriorBlanks mergedLines
      .ok (filtered.map (reindentLine ref.sect parentIndent))

/-- `content.split(/\r?\n/).map(line => new YamlLine(line))`. -/
def parseLines (content : List Char) : List YamlLine :=
  (splitLines content).map mkYamlLine

/-- One `YamlDocument` run: construct, `load()`, `merge()` (lines
108-142 and 277-312).  The constructor creates a fresh empty
`processedFiles` set for every document — the options spread passed to
child documents does not carry it over — so the circular check in
`load()` tests membership of the document's own path in an empty set.
`load()` then reads the file and calls `yaml.load` on it; a read
failure and a `yaml.load` throw both abort via the same load-time
`YamlMergeError` wrapper (merge.js:135-141), modelled as `ioFailure`. -/
def mergeDoc : Nat → YamlOk → FS → List Char → List Char → Except MergeErr (List YamlLine)
  | 0, _, _, _, _ => .error .outOfFuel
  | fuel + 1, yamlOk, fs, cwd, path =>
    let processedFiles : List (List Char) := []
    if processedFiles.contains path then .error .circularReference
    else
      match fs path with
      | none => .error .ioFailure
      | some content =>
        if yamlOk content then
          mergeLoopF
            (fun ref pI => processMergeF (mergeDoc fuel yamlOk fs cwd) fs (dirname path) cwd ref pI)
            false (parseLines content)
        else .error .ioFailure

/-- `YamlDocument.toString()`: `lines.map(l => l.raw).join(EOL) + EOL`. -/
def docToString (lines : List YamlLine) : List Char :=
  joinNL (lines.map (·.raw)) ++ ['\n']

/-- Load, merge and serialize one file. -/
def mergeContent (fuel : Nat) (yamlOk : YamlOk) (fs : FS) (cwd path : List Char) :
    Except MergeErr (List Char) :=
  (mergeDoc fuel yamlOk fs cwd path).map docToString

/-- Oracle instance for the concrete documents used below: each is a
plain YAML scalar/mapping document (`a:`, `a: 1`, `merge:`,
`merge: $\x7bfile(/B)\x7d`, `p:` with an indented key, `x: 1`), and
js-yaml parses every one of them successfully. -/
def yamlOkAll : YamlOk := fun _ => true

/-- The `#MergeBackup` sentinel line. -/
def tagLine : List Char := ("#MergeBackup\n").toList

/-- `YamlMerger.removeBackupTags`: `content.replace(/#MergeBackup\n/g, '')` —
every left-to-right non-overlapping occurrence is removed. -/
def removeBackupTags : List Char → List Char
  | '#' :: 'M' :: 'e' :: 'r' :: 'g' :: 'e' :: 'B' :: 'a' :: 'c' :: 'k' :: 'u' :: 'p' :: '\n' :: rest =>
    removeBackupTags rest
  | c :: rest => c :: removeBackupTags rest
  | [] => []

/-- `YamlMerger.hasMergeDirectives(content)`. -/
def hasMergeDirectives (content : List Char) : Bool :=
  strIncludes content (("merge:").toList) || strIncludes content (("$<<:").toList) ||
    strIncludes content (("merge:pack").toList)

/-- The backup content written by `YamlMerger.process` (lines 497-499):
the sentinel line prepended to the tag-stripped original. -/
def backupContentOf (original : List Char) : List Char :=
  tagLine ++ removeBackupTags original

/-- The content `YamlMerger.restore` writes back (lines 401-415):
`none` when the backup lacks the sentinel (restore refused), otherwise
the backup with every sentinel occurrence stripped. -/
def restoreContentOf (backup : List Char) : Option (List Char) :=
  if strIncludes backup (("#MergeBackup").toList) then some (removeBackupTags backup)
  else none

/-- The candidate order stated by the specification for
`resolveFilePath` (§4.2). -/
def claimedCandidates (baseDir cwd rel : List Char) : List (List Char) :=
  (if isAbsolutePath rel then [rel] else []) ++
    [ pathResolve baseDir rel,
      pathResolve (pathResolve baseDir (("..").toList)) rel,
      pathResolve cwd rel,
      pathResolve (pathResolve cwd (("serverless").toList)) rel,
      pathResolve (pathResolve cwd (("src").toList)) rel,
      pathResolve (pathResolve cwd (("config").toList)) rel ]

/-- The directive classification exactly as the specification words it
(§3 Line Model), as a predicate on the trimmed content. -/
def isMergeDirectiveClaim (c : List Char) : Bool :=
  (c = ("merge:").toList || c = ("$<<:").toList) ||
    (strIncludes c fileTok &&
      (("merge:").toList.isPrefixOf c || ("$<<:").toList.isPrefixOf c ||
        ("- ").toList.isPrefixOf c))

/-- Well-formedness carried through the merge: the line's stored
directive flag is the one a re-parse of its current raw text would
produce, the flag is false, and the stored indent is whitespace.
Every line of a successfully merged document satisfies this. -/
def GoodL (l : YamlLine) : Prop :=
  (mkYamlLine l.raw).isMergeDirective = l.isMergeDirective ∧
    l.isMergeDirective = false ∧ allWS l.indent = true

/-- Concrete two-file cycle: `/A` and `/B` reference each other. -/
def contentA : List Char := ("merge: $\x7bfile(/B)\x7d").toList

def contentB : List Char := ("merge: $\x7bfile(/A)\x7d").toList

def pathA : List Char := ("/A").toList

def pathB : List Char := ("/B").toList

def cwd0 : List Char := ("/").toList

def fsAB : FS := fun p =>
  if p = pathA then some contentA
  else if p = pathB then some contentB
  else none

/-- Host/child pair used by witnesses: `/host` splices `/child`. -/
def fsHost : FS := fun p =>
  if p = ("/host").toList then some (("p:\n  merge: $\x7bfile(/child)\x7d").toList)
  else if p = ("/child").toList then some (("x: 1").toList)
  else none

lemma dropWhile_append_of_all {p : Char → Bool} (w t : List Char) (h : w.all p = true) :
    (w ++ t).dropWhile p = t.dropWhile p := by
  induction w with
  | nil => simp
  | cons c w ih =>
    simp only [List.all_cons, Bool.and_eq_true] at h
    simp [List.dropWhile_cons, h.1, ih h.2]

lemma dropWhile_idem {p : Char → Bool} (l : List Char) :
    (l.dropWhile p).dropWhile p = l.dropWhile p := by
  induction l with
  | nil => rfl
  | cons c l ih =>
    by_cases h : p c <;> simp [List.dropWhile_cons, h, ih]

lemma dropWhileHeadFalse {p : Char → Bool} :
    ∀ (l : List Char) (h : Char) (t : List Char), l.dropWhile p = h :: t → p h = false := by
  intro l
  induction l with
  | nil => intro h t hc; simp at hc
  | cons c l ih =>
    intro h t hc
    by_cases hp : p c
    · exact ih h t (by simpa [List.dropWhile_cons, hp] using hc)
    · rw [List.dropWhile_cons, if_neg (by simp [hp])] at hc
      cases hc
      simpa using hp

lemma trimRight_decomp (m : List Char) :
    ∃ w, m = trimRight m ++ w ∧ w.all jsWS = true := by
  refine ⟨(m.reverse.takeWhile jsWS).reverse, ?_, ?_⟩
  · conv_lhs => rw [← m.reverse_reverse, ← List.takeWhile_append_dropWhile (p := jsWS) (l := m.reverse)]
    rw [List.reverse_append]
    rfl
  · rw [List.all_eq_true]
    intro c hc
    rw [List.mem_reverse] at hc
    exact List.mem_takeWhile_imp hc

lemma trimLeftL_trimRight (m : List Char) :
    trimLeftL (trimRight (trimLeftL m)) = trimRight (trimLeftL m) := by
  cases hdm : trimRight (trimLeftL m) with
  | nil => simp [trimLeftL]
  | cons h t =>
    obtain ⟨w, hw, _⟩ := trimRight_decomp (trimLeftL m)
    rw [hdm] at hw
    have hh : jsWS h = false := by
      apply dropWhileHeadFalse (p := jsWS) m h (t ++ w)
      simpa using hw
    simp [trimLeftL, List.dropWhile_cons, hh]

lemma trimRight_idem (m : List Char) : trimRight (trimRight m) = trimRight m := by
  simp [trimRight, List.reverse_reverse, dropWhile_idem]

lemma trimL_trimL (s : List Char) : trimL (trimL s) = trimL s := by
  show trimRight (trimLeftL (trimRight (trimLeftL s))) = trimRight (trimLeftL s)
  rw [trimLeftL_trimRight, trimRight_idem]

lemma trimL_ws_append (w s : List Char) (h : allWS w = true) :
    trimL (w ++ trimLeftL s) = trimL s := by
  show trimRight (trimLeftL (w ++ trimLeftL s)) = trimRight (trimLeftL s)
  have h1 : trimLeftL (w ++ trimLeftL s) = trimLeftL (trimLeftL s) :=
    dropWhile_append_of_all w (trimLeftL s) h
  rw [h1]
  show trimRight ((s.dropWhile jsWS).dropWhile jsWS) = _
  rw [dropWhile_idem]
  rfl

/-- C7: for every raw input line, the constructed line's
`isMergeDirective` flag holds exactly when its trimmed content is
`merge:` or `$<<:`, or contains the `${file(` token and begins with
`merge:`, `$<<:` or `- `. -/
theorem line_directive_classification (raw : List Char) :
    (mkYamlLine raw).isMergeDirective = isMergeDirectiveClaim (trimL raw) := by
  show isMergeTag (trimL raw) = _
  unfold isMergeTag isMergeDirectiveClaim
  rw [trimL_trimL]
  by_cases h : trimL raw = ("merge:").toList ∨ trimL raw = ("$<<:").toList
  · rcases h with h | h <;> simp [h]
  · push_neg at h
    rcases h with ⟨h1, h2⟩
    by_cases hs : strIncludes (trimL raw) fileTok = true <;> simp [h1, h2, hs]

lemma firstExisting_eq_find (fs : FS) (l : List (List Char)) :
    firstExisting fs l = l.find? (fun p => (fs p).isSome) := by
  induction l with
  | nil => rfl
  | cons p rest ih =>
    simp only [firstExisting, List.find?_cons]
    cases h : (fs p).isSome <;> simp [h, ih]

/-- C8: `resolveFilePath` returns the first existing path of exactly the
candidate list the specification states (the reference itself when
absolute, then the document directory, its parent, the working
directory, and the `serverless`, `src`, `config` subdirectories of the
working directory), and fails with `UnresolvableReference` when no
candidate exists. -/
theorem resolveFilePath_claimed_order (fs : FS) (baseDir cwd rel : List Char) :
    resolveFilePath fs baseDir cwd rel =
      match (claimedCandidates baseDir cwd rel).find? (fun p => (fs p).isSome) with
      | some p => .ok p
      | none => .error .unresolvableReference := by
  simp only [resolveFilePath, claimedCandidates, firstExisting_eq_find]
  by_cases h : isAbsolutePath rel = true <;> simp [h]

lemma reindentCont_eq_noSplit (sec : Option (List Char)) (pI : List Char) (l : YamlLine) :
    reindentCont sec pI l = reindentContNoSplit sec pI l := by
  unfold reindentCont reindentContNoSplit
  split_ifs <;> rfl

/-- C9: the two capitalization branches of the list-item reindent step
compute the same result (`parentIndent + line.indent`), so the whole
per-line reindent is unchanged when the list-item step drops its
capitalization split. -/
theorem listItem_reindent_capitalization_independent
    (sec : Option (List Char)) (pI : List Char) (l : YamlLine) :
    reindentLine sec pI l = reindentLineNoSplit sec pI l := by
  simp only [reindentLine, reindentLineNoSplit, reindentCont_eq_noSplit]

/-- C10: under a lowercase-section import (requested section truthy and
not starting with an uppercase letter), every non-empty, non-comment
line is reindented to exactly the parent indent: the relative-reindent
branch `parentIndent + indent.slice(2)` is unreachable because the
guard before it always holds in that branch. -/
theorem lowercase_section_reindents_to_parent (sec pI : List Char) (l : YamlLine)
    (hs : sectionTruthy (some sec) = true) (hc : capFirst sec = false)
    (he : l.isEmpty = false) (hcm : l.isComment = false) :
    reindentLine (some sec) pI l = clone l (some pI) := by
  unfold reindentLine
  simp only [he, hcm, hs, hc, Option.getD_some, Bool.or_self, Bool.false_eq_true, if_false,
    if_true, Bool.not_false, Bool.and_true]
  split_ifs <;> rfl

theorem lowercase_section_reindents_to_parent_witness :
    reindentLine (some (("abc").toList)) (("  ").toList) (mkYamlLine (("    x: 1").toList)) =
      clone (mkYamlLine (("    x: 1").toList)) (some (("  ").toList)) :=
  lowercase_section_reindents_to_parent (("abc").toList) (("  ").toList)
    (mkYamlLine (("    x: 1").toList)) (by decide) (by decide) (by decide) (by decide)

/-- C5 counterexample: on `["a:", "  a: 1", "b:"]` with section `a`, the
nested line `  a: 1` also has key `a`; the scan's key test precedes its
in-section test, so that line is skipped and resets the boundary indent,
and the code returns `[]` where the claimed characterization returns
`["  a: 1"]`. -/
theorem extractSection_claim_counterexample :
    extractSection (List.map mkYamlLine [("a:").toList, ("  a: 1").toList, ("b:").toList])
        (("a").toList) ≠
      extractSectionClaim (List.map mkYamlLine [("a:").toList, ("  a: 1").toList, ("b:").toList])
        (("a").toList) := by
  decide

lemma extractGo_no_match (cur : List Char) :
    ∀ ls si, (∀ l ∈ ls, l.key ≠ some cur) →
      extractGo cur ls true si =
        ls.takeWhile (fun l => l.isEmpty || l.isComment || decide (si.length < l.indent.length)) := by
  intro ls
  induction ls with
  | nil => intro si _; rfl
  | cons l rest ih =>
    intro si h
    have hk : ¬(l.key = some cur) := h l (by simp)
    by_cases he : l.isEmpty <;> by_cases hc : l.isComment <;>
      by_cases hi : si.length < l.indent.length <;>
        simp [extractGo, hk, he, hc, hi, Nat.not_lt.mp, Nat.le_of_not_lt, Nat.not_le.mpr,
          List.takeWhile_cons, ih si (fun x hx => h x (by simp [hx]))]

lemma extractGo_eq_claim_of_unique (cur : List Char) :
    ∀ ls : List YamlLine, ls.countP (fun l => decide (l.key = some cur)) ≤ 1 →
      ∀ si, extractGo cur ls false si =
        (match ls.dropWhile (fun l => !decide (l.key = some cur)) with
         | [] => []
         | k :: post =>
           post.takeWhile (fun l => l.isEmpty || l.isComment || decide (k.indent.length < l.indent.length))) := by
  intro ls
  induction ls with
  | nil => intro _ si; rfl
  | cons l rest ih =>
    intro hcount si
    by_cases hk : l.key = some cur
    · have hrest : rest.countP (fun l => decide (l.key = some cur)) = 0 := by
        rw [List.countP_cons, if_pos (by simp [hk])] at hcount
        omega
      have hnone : ∀ x ∈ rest, x.key ≠ some cur := by
        intro x hx
        have := List.countP_eq_zero.mp hrest x hx
        simpa using this
      simp [extractGo, hk, List.dropWhile_cons, extractGo_no_match cur rest l.indent hnone]
    · have hcount' : rest.countP (fun l => decide (l.key = some cur)) ≤ 1 := by
        rw [List.countP_cons] at hcount
        omega
      simp [extractGo, hk, List.dropWhile_cons, ih hcount' si]

/-- C5 amended: when the first dot-segment key occurs on at most one
line, `extractSection` returns exactly the contiguous lines strictly
after the first line whose key equals the segment, up to but excluding
the first subsequent non-empty, non-comment line whose indent is ≤ the
key line's indent, and `[]` when the key never occurs.  (Any further
line whose key equals the segment would instead be skipped and would
reset the boundary indent, as the counterexample shows.) -/
theorem extractSection_eq_claim_of_unique_key (lines : List YamlLine) (sectionPath : List Char)
    (h : lines.countP (fun l => decide (l.key = some (firstDotSegment sectionPath))) ≤ 1) :
    extractSection lines sectionPath = extractSectionClaim lines sectionPath := by
  unfold extractSection extractSectionClaim
  exact extractGo_eq_claim_of_unique (firstDotSegment sectionPath) lines h []

theorem extractSection_eq_claim_witness :
    extractSection
        (List.map mkYamlLine [("x: 0").toList, ("a:").toList, ("  b: 1").toList, ("c: 2").toList])
        (("a").toList) =
      extractSectionClaim
        (List.map mkYamlLine [("x: 0").toList, ("a:").toList, ("  b: 1").toList, ("c: 2").toList])
        (("a").toList) :=
  extractSection_eq_claim_of_unique_key
    (List.map mkYamlLine [("x: 0").toList, ("a:").toList, ("  b: 1").toList, ("c: 2").toList])
    (("a").toList) (by decide)

/-- C6 counterexample: an original whose first line is itself the
`#MergeBackup` sentinel (a legal comment line) contains merge
directives, yet `process` backs up the tag-stripped content and
`restore` strips every sentinel occurrence, so the round trip loses the
line instead of being byte-identical. -/
theorem backup_restore_counterexample :
    hasMergeDirectives (("#MergeBackup\nmerge: $\x7bfile(a)\x7d\n").toList) = true ∧
      restoreContentOf (backupContentOf (("#MergeBackup\nmerge: $\x7bfile(a)\x7d\n").toList)) ≠
        some (("#MergeBackup\nmerge: $\x7bfile(a)\x7d\n").toList) :=
  ⟨by decide, by decide⟩

lemma removeBackupTags_tag_append (X : List Char) :
    removeBackupTags (tagLine ++ X) = removeBackupTags X := rfl

lemma strIncludes_tag_append (X : List Char) :
    strIncludes (tagLine ++ X) (("#MergeBackup").toList) = true := rfl

/-- C6 amended: `process` backs up the sentinel line prepended to the
tag-stripped original and `restore` strips every sentinel occurrence,
so the round trip restores the original byte-identically exactly when
tag-stripping the original is a no-op, i.e. the original contains no
`#MergeBackup` sentinel line of its own. -/
theorem backup_restore_roundtrip (C : List Char) (_hdir : hasMergeDirectives C = true)
    (hfix : removeBackupTags C = C) :
    restoreContentOf (backupContentOf C) = some C := by
  unfold restoreContentOf backupContentOf
  rw [hfix, strIncludes_tag_append, if_pos rfl, removeBackupTags_tag_append, hfix]

theorem backup_restore_roundtrip_witness :
    restoreContentOf (backupContentOf (("merge: $\x7bfile(a)\x7d\n").toList)) =
      some (("merge: $\x7bfile(a)\x7d\n").toList) :=
  backup_restore_roundtrip (("merge: $\x7bfile(a)\x7d\n").toList) (by decide) (by decide)

/-- C4 counterexample: the line `merge:` is classified as a directive
and its content yields no `FileReference`, yet `merge()` on a document
consisting of that single line returns an empty line sequence — the
line is dropped, not passed through. -/
theorem unparseable_directive_counterexample :
    (mkYamlLine (("merge:").toList)).isMergeDirective = true ∧
      parseFileReference (mkYamlLine (("merge:").toList)).content = none ∧
      mergeDoc 1 yamlOkAll (fun p => if p = ("/d").toList then some (("merge:").toList) else none)
          cwd0 (("/d").toList) = .ok [] :=
  ⟨by decide, by decide, by rfl⟩

/-- C4 amended: a non-empty, non-comment line classified as a merge
directive whose content does not parse into a `FileReference` is
silently dropped by the merge scan (no output line, no error): neither
the `if (fileRef)` push nor the `if (!line.isMergeDirective)` push
fires for it. -/
theorem unparseable_directive_dropped (f : FileRef → List Char → Except MergeErr (List YamlLine))
    (b : Bool) (l : YamlLine) (rest : List YamlLine)
    (he : l.isEmpty = false) (hc : l.isComment = false) (hd : l.isMergeDirective = true)
    (hp : parseFileReference l.content = none) :
    mergeLoopF f b (l :: rest) = mergeLoopF f false rest := by
  simp [mergeLoopF, he, hc, hd, hp]

theorem unparseable_directive_dropped_witness :
    mergeLoopF (fun _ _ => .error .ioFailure) false
        [mkYamlLine (("merge:").toList), mkYamlLine (("a: 1").toList)] =
      mergeLoopF (fun _ _ => .error .ioFailure) false [mkYamlLine (("a: 1").toList)] :=
  unparseable_directive_dropped (fun _ _ => .error .ioFailure) false
    (mkYamlLine (("merge:").toList)) [mkYamlLine (("a: 1").toList)]
    (by decide) (by decide) (by decide) (by decide)

lemma prependHead_ne_nil (c : Char) (S : List (List Char)) : prependHead c S ≠ [] := by
  cases S <;> simp [prependHead]

lemma splitLines_ne_nil (l : List Char) : splitLines l ≠ [] := by
  induction l using splitLines.induct with
  | case1 => simp [splitLines]
  | case2 rest ih => simp [splitLines]
  | case3 rest ih => simp [splitLines]
  | case4 c rest h1 h2 ih =>
    unfold splitLines
    split
    · simp
    · simp
    · simp
    · exact prependHead_ne_nil _ _

lemma joinNL_cons_of_ne_nil (x : List Char) (S : List (List Char)) (h : S ≠ []) :
    joinNL (x :: S) = x ++ '\n' :: joinNL S := by
  cases S with
  | nil => exact absurd rfl h
  | cons s S' => rfl

lemma joinNL_prependHead (c : Char) (S : List (List Char)) (h : S ≠ []) :
    joinNL (prependHead c S) = c :: joinNL S := by
  cases S with
  | nil => exact absurd rfl h
  | cons s S' =>
    cases S' with
    | nil => rfl
    | cons s2 S2 => rfl

lemma joinNL_splitLines (l : List Char) (h : '\r' ∉ l) : joinNL (splitLines l) = l := by
  induction l using splitLines.induct with
  | case1 => rfl
  | case2 rest ih => exact absurd (by simp) h
  | case3 rest ih =>
    have h' : '\r' ∉ rest := fun hr => h (by simp [hr])
    rw [show splitLines ('\n' :: rest) = [] :: splitLines rest from rfl,
      joinNL_cons_of_ne_nil [] (splitLines rest) (splitLines_ne_nil rest)]
    simp [ih h']
  | case4 c rest h1 h2 ih =>
    have h' : '\r' ∉ rest := fun hr => h (by simp [hr])
    have hc : c ≠ '\r' := fun hr => h (by simp [hr])
    have hstep : splitLines (c :: rest) = prependHead c (splitLines rest) := by
      conv_lhs => unfold splitLines
      split
      · rename_i heq
        exact absurd heq (by simp)
      · rename_i rest2 heq
        injection heq with hch hrest
        exact absurd hch hc
      · rename_i rest2 heq
        injection heq with hch hrest
        exact absurd hch (by simpa using h2)
      · rename_i c2 rest2 hA hB heq
        injection heq with hch hrest
        subst hch
        subst hrest
        rfl
    rw [hstep, joinNL_prependHead c (splitLines rest) (splitLines_ne_nil rest), ih h']

lemma mkYamlLine_raw (r : List Char) : (mkYamlLine r).raw = r := rfl

lemma parseLines_raw (content : List Char) :
    (parseLines content).map (·.raw) = splitLines content := by
  unfold parseLines
  rw [List.map_map]
  have h : ((fun l : YamlLine => l.raw) ∘ mkYamlLine) = id := funext fun r => rfl
  rw [h, List.map_id]

lemma mergeLoopF_id (f : FileRef → List Char → Except MergeErr (List YamlLine)) :
    ∀ (ls : List YamlLine) (b : Bool),
      (∀ l ∈ ls, l.isMergeDirective = false) →
      List.Chain' (fun a b => ¬(a.isEmpty = true ∧ b.isEmpty = true)) ls →
      (b = true → ∀ h, ls.head? = some h → h.isEmpty = false) →
      mergeLoopF f b ls = .ok ls := by
  intro ls
  induction ls with
  | nil => intro b _ _ _; cases b <;> rfl
  | cons l rest ih =>
    intro b hdir hchain hb
    have htail : List.Chain' (fun a b => ¬(a.isEmpty = true ∧ b.isEmpty = true)) rest := hchain.tail
    have hdtail : ∀ x ∈ rest, x.isMergeDirective = false := fun x hx => hdir x (by simp [hx])
    by_cases he : l.isEmpty = true
    · cases b with
      | true => exact absurd (hb rfl l rfl) (by simp [he])
      | false =>
        have hrest : mergeLoopF f true rest = .ok rest := by
          apply ih true hdtail htail
          intro _ h hh
          cases rest with
          | nil => simp at hh
          | cons r rest' =>
            have hrel := List.chain'_cons.mp hchain |>.1
            simp only [List.head?_cons, Option.some.injEq] at hh
            subst hh
            by_cases hre : r.isEmpty = true
            · exact absurd ⟨he, hre⟩ hrel
            · simpa using hre
        simp [mergeLoopF, he, hrest]
    · have hbfalse : (false : Bool) = true → ∀ h, rest.head? = some h → h.isEmpty = false := by
        intro habs
        exact absurd habs (by simp)
      have hrest : mergeLoopF f false rest = .ok rest := ih false hdtail htail hbfalse
      by_cases hc : l.isComment = true
      · simp [mergeLoopF, he, hc, hrest]
      · have hd : l.isMergeDirective = false := hdir l (by simp)
        simp [mergeLoopF, he, hc, hd, hrest]

/-- C3 counterexample: the directive-free one-line document `a:` merges
to serialized output `a:\n` — `toString` appends one EOL — so the
output is not byte-identical to the input. -/
theorem merge_not_byte_identical :
    mergeContent 1 yamlOkAll (fun p => if p = ("/c").toList then some (("a:").toList) else none)
        cwd0 (("/c").toList) = .ok (("a:\n").toList) ∧
      ("a:\n").toList ≠ ("a:").toList :=
  ⟨by rfl, by decide⟩

/-- C3 amended: for a directive-free document that loads (`yaml.load`
accepts it), with no run of two consecutive blank lines and no carriage
returns, `merge()` is the identity on the parsed line sequence, and the
serialized output is the input content with exactly one EOL appended —
not byte-identical. -/
theorem merge_directive_free_identity (fuel : Nat) (yamlOk : YamlOk) (fs : FS)
    (cwd path content : List Char)
    (hfs : fs path = some content) (hyaml : yamlOk content = true) (hcr : '\r' ∉ content)
    (hdir : ∀ l ∈ parseLines content, l.isMergeDirective = false)
    (hblank : List.Chain' (fun a b => ¬(a.isEmpty = true ∧ b.isEmpty = true)) (parseLines content)) :
    mergeDoc (fuel + 1) yamlOk fs cwd path = .ok (parseLines content) ∧
      docToString (parseLines content) = content ++ ['\n'] := by
  constructor
  · unfold mergeDoc
    rw [hfs]
    simp only [List.contains, List.elem_nil, Bool.false_eq_true, if_false]
    rw [if_pos hyaml]
    exact mergeLoopF_id _ (parseLines content) false hdir hblank
      (fun habs => absurd habs (by simp))
  · unfold docToString
    rw [parseLines_raw, joinNL_splitLines content hcr]

theorem merge_directive_free_identity_witness :
    mergeDoc 1 yamlOkAll
        (fun p => if p = ("/n").toList then some (("a: 1\nb: 2").toList) else none) cwd0
        (("/n").toList) = .ok (parseLines (("a: 1\nb: 2").toList)) ∧
      docToString (parseLines (("a: 1\nb: 2").toList)) = ("a: 1\nb: 2").toList ++ ['\n'] :=
  merge_directive_free_identity 0 yamlOkAll
    (fun p => if p = ("/n").toList then some (("a: 1\nb: 2").toList) else none) cwd0
    (("/n").toList) (("a: 1\nb: 2").toList) (by rfl) (by rfl) (by decide) (by decide)
    (by
      rw [show parseLines (("a: 1\nb: 2").toList) =
        [mkYamlLine (("a: 1").toList), mkYamlLine (("b: 2").toList)] from rfl]
      exact List.chain'_cons.mpr ⟨by decide, List.chain'_singleton _⟩)

lemma processMergeF_err (md : List Char → Except MergeErr (List YamlLine)) (fs : FS)
    (bd cwd : List Char) (ref : FileRef) (pI : List Char) (rp : List Char) (e : MergeErr)
    (h1 : resolveFilePath fs bd cwd ref.path = .ok rp) (h2 : md rp = .error e) :
    processMergeF md fs bd cwd ref pI = .error e := by
  simp only [processMergeF, h1, h2]

lemma mergeLoopF_directive_err (f : FileRef → List Char → Except MergeErr (List YamlLine))
    (b : Bool) (l : YamlLine) (rest : List YamlLine) (ref : FileRef) (e : MergeErr)
    (he : l.isEmpty = false) (hc : l.isComment = false) (hd : l.isMergeDirective = true)
    (hp : parseFileReference l.content = some ref) (hf : f ref l.indent = .error e) :
    mergeLoopF f b (l :: rest) = .error e := by
  simp [mergeLoopF, he, hc, hd, hp, hf]

lemma cycleAB_out_of_fuel : ∀ n, mergeDoc n yamlOkAll fsAB cwd0 pathA = .error .outOfFuel ∧
    mergeDoc n yamlOkAll fsAB cwd0 pathB = .error .outOfFuel := by
  intro n
  induction n with
  | zero => exact ⟨rfl, rfl⟩
  | succ n ih =>
    constructor
    · have hstep : mergeDoc (n + 1) yamlOkAll fsAB cwd0 pathA =
        mergeLoopF
          (fun ref pI => processMergeF (mergeDoc n yamlOkAll fsAB cwd0) fsAB (dirname pathA) cwd0 ref pI)
          false [mkYamlLine contentA] := by rfl
      rw [hstep]
      exact mergeLoopF_directive_err _ false (mkYamlLine contentA) []
        { path := pathB, sect := none } .outOfFuel (by decide) (by decide) (by decide) (by decide)
        (processMergeF_err _ _ _ _ _ _ pathB .outOfFuel (by rfl) ih.2)
    · have hstep : mergeDoc (n + 1) yamlOkAll fsAB cwd0 pathB =
        mergeLoopF
          (fun ref pI => processMergeF (mergeDoc n yamlOkAll fsAB cwd0) fsAB (dirname pathB) cwd0 ref pI)
          false [mkYamlLine contentB] := by rfl
      rw [hstep]
      exact mergeLoopF_directive_err _ false (mkYamlLine contentB) []
        { path := pathA, sect := none } .outOfFuel (by decide) (by decide) (by decide) (by decide)
        (processMergeF_err _ _ _ _ _ _ pathA .outOfFuel (by rfl) ih.1)

/-- C2: on the two-file cycle `/A` → `/B` → `/A` the merge never
terminates: for every fuel bound the run is still recursing
(`outOfFuel`), and in particular the `CircularReference` error is never
raised — each document's `processedFiles` set is created empty by the
constructor and never threaded to child documents, so the `load()`
membership test can never fire.  The claim (and the source's own
`'Circular reference detected'` error and README) describe the intended
behaviour; the code recurses unboundedly instead. -/
theorem circular_reference_never_detected (fuel : Nat) :
    mergeDoc fuel yamlOkAll fsAB cwd0 pathA = .error .outOfFuel :=
  (cycleAB_out_of_fuel fuel).1

lemma allWS_append (a b : List Char) (ha : allWS a = true) (hb : allWS b = true) :
    allWS (a ++ b) = true := by
  simp only [allWS, List.all_append, Bool.and_eq_true]
  exact ⟨ha, hb⟩

lemma allWS_take (a : List Char) (n : Nat) (ha : allWS a = true) : allWS (a.take n) = true := by
  rw [allWS, List.all_eq_true] at ha ⊢
  exact fun c hc => ha c (List.take_subset n a hc)

lemma allWS_drop (a : List Char) (n : Nat) (ha : allWS a = true) : allWS (a.drop n) = true := by
  rw [allWS, List.all_eq_true] at ha ⊢
  exact fun c hc => ha c (List.drop_subset n a hc)

lemma allWS_twoSpaces (n : Nat) : allWS (twoSpaces n) = true := by
  rw [allWS, List.all_eq_true]
  intro c hc
  rw [twoSpaces, List.mem_replicate] at hc
  rw [hc.2]
  rfl

lemma mk_indent_ws (r : List Char) : allWS (mkYamlLine r).indent = true := by
  rw [allWS, List.all_eq_true]
  intro c hc
  exact List.mem_takeWhile_imp hc

lemma mk_empty_dir (r : List Char) (h : (mkYamlLine r).isEmpty = true) :
    (mkYamlLine r).isMergeDirective = false := by
  have hc : trimL r = [] := by
    have : (trimL r).isEmpty = true := h
    exact List.isEmpty_iff.mp this
  show isMergeTag (trimL r) = false
  rw [hc]
  decide

lemma content_hash_shape (r : List Char) (h : (mkYamlLine r).isComment = true) :
    ∃ cs, trimL r = '#' :: cs := by
  have hp : ("#").toList.isPrefixOf (trimL r) = true := h
  cases hct : trimL r with
  | nil => rw [hct] at hp; simp [List.isPrefixOf] at hp
  | cons c cs =>
    rw [hct] at hp
    have : ('#' == c) = true := by
      simpa [List.isPrefixOf] using hp
    exact ⟨cs, by rw [eq_of_beq this]⟩

lemma mk_comment_dir (r : List Char) (h : (mkYamlLine r).isComment = true) :
    (mkYamlLine r).isMergeDirective = false := by
  obtain ⟨cs, hcs⟩ := content_hash_shape r h
  show isMergeTag (trimL r) = false
  unfold isMergeTag
  rw [trimL_trimL, hcs]
  have h1 : ¬('#' :: cs = ("merge:").toList ∨ '#' :: cs = ("$<<:").toList) := by
    rintro (habs | habs) <;> simp at habs
  rw [if_neg h1]
  have h2 : ("merge:").toList.isPrefixOf ('#' :: cs) = false := rfl
  have h3 : ("$<<:").toList.isPrefixOf ('#' :: cs) = false := rfl
  have h4 : ("- ").toList.isPrefixOf ('#' :: cs) = false := rfl
  by_cases hs : strIncludes ('#' :: cs) fileTok = true
  · rw [if_pos hs, h2, h3, h4]; rfl
  · rw [if_neg hs]

lemma goodL_clone_none (l : YamlLine) (h : GoodL l) : GoodL (clone l none) := by
  show GoodL (mkYamlLine l.raw)
  refine ⟨rfl, ?_, mk_indent_ws l.raw⟩
  rw [h.1, h.2.1]

lemma goodL_clone_some (l : YamlLine) (w : List Char) (h : GoodL l) (hw : allWS w = true) :
    GoodL (clone l (some w)) := by
  refine ⟨?_, ?_, ?_⟩
  · show (mkYamlLine (w ++ trimLeftL l.raw)).isMergeDirective = (mkYamlLine l.raw).isMergeDirective
    show isMergeTag (trimL (w ++ trimLeftL l.raw)) = isMergeTag (trimL l.raw)
    rw [trimL_ws_append w l.raw hw]
  · show (mkYamlLine l.raw).isMergeDirective = false
    rw [h.1, h.2.1]
  · exact hw

lemma extractGo_subset (cur : List Char) :
    ∀ (ls : List YamlLine) (b : Bool) (si : List Char) (x : YamlLine),
      x ∈ extractGo cur ls b si → x ∈ ls := by
  intro ls
  induction ls with
  | nil => intro b si x hx; simp [extractGo] at hx
  | cons l rest ih =>
    intro b si x hx
    unfold extractGo at hx
    by_cases hk : l.key = some cur
    · rw [if_pos hk] at hx
      exact List.mem_cons_of_mem l (ih true l.indent x hx)
    · rw [if_neg hk] at hx
      by_cases hb : b = true
      · rw [if_pos hb] at hx
        by_cases hstop : (!l.isEmpty && !l.isComment && decide (l.indent.length ≤ si.length)) = true
        · rw [if_pos hstop] at hx
          simp at hx
        · rw [if_neg hstop] at hx
          rcases List.mem_cons.mp hx with hx | hx
          · exact hx ▸ List.mem_cons_self l rest
          · exact List.mem_cons_of_mem l (ih b si x hx)
      · rw [if_neg hb] at hx
        exact List.mem_cons_of_mem l (ih b si x hx)

lemma extractSection_subset (lines : List YamlLine) (sp : List Char) (x : YamlLine)
    (hx : x ∈ extractSection lines sp) : x ∈ lines :=
  extractGo_subset (firstDotSegment sp) lines false [] x hx

lemma collapseBlankRuns_subset :
    ∀ (ls : List YamlLine) (b : Bool) (x : YamlLine), x ∈ collapseBlankRuns b ls → x ∈ ls := by
  intro ls
  induction ls with
  | nil => intro b x hx; simp [collapseBlankRuns] at hx
  | cons l rest ih =>
    intro b x hx
    unfold collapseBlankRuns at hx
    by_cases he : l.isEmpty = true
    · rw [if_pos he] at hx
      by_cases hb : b = true
      · rw [if_pos hb] at hx
        exact List.mem_cons_of_mem l (ih true x hx)
      · rw [if_neg hb] at hx
        rcases List.mem_cons.mp hx with hx | hx
        · exact hx ▸ List.mem_cons_self l rest
        · exact List.mem_cons_of_mem l (ih true x hx)
    · rw [if_neg he] at hx
      rcases List.mem_cons.mp hx with hx | hx
      · exact hx ▸ List.mem_cons_self l rest
      · exact List.mem_cons_of_mem l (ih false x hx)

lemma dropInteriorBlanksGo_subset (arr : List YamlLine) :
    ∀ (ls : List YamlLine) (i : Nat) (x : YamlLine), x ∈ dropInteriorBlanksGo arr i ls → x ∈ ls := by
  intro ls
  induction ls with
  | nil => intro i x hx; simp [dropInteriorBlanksGo] at hx
  | cons l rest ih =>
    intro i x hx
    unfold dropInteriorBlanksGo at hx
    by_cases hk : keepLine arr i l = true
    · rw [if_pos hk] at hx
      rcases List.mem_cons.mp hx with hx | hx
      · exact hx ▸ List.mem_cons_self l rest
      · exact List.mem_cons_of_mem l (ih (i + 1) x hx)
    · rw [if_neg hk] at hx
      exact List.mem_cons_of_mem l (ih (i + 1) x hx)

lemma dropInteriorBlanks_subset (arr : List YamlLine) (x : YamlLine)
    (hx : x ∈ dropInteriorBlanks arr) : x ∈ arr :=
  dropInteriorBlanksGo_subset arr arr 0 x hx

set_option maxHeartbeats 1000000 in
lemma reindent_good (sec : Option (List Char)) (pI : List Char) (l : YamlLine)
    (h : GoodL l) (hpI : allWS pI = true) : GoodL (reindentLine sec pI l) := by
  have hind : allWS l.indent = true := h.2.2
  unfold reindentLine reindentCont
  split_ifs <;>
    first
      | exact goodL_clone_none l h
      | exact goodL_clone_some l _ h hpI
      | exact goodL_clone_some l _ h (allWS_append _ _ hpI hind)
      | exact goodL_clone_some l _ h (allWS_append _ _ (allWS_take pI _ hpI) hind)
      | exact goodL_clone_some l _ h (allWS_append _ _ hpI (allWS_twoSpaces _))
      | exact goodL_clone_some l _ h (allWS_append _ _ hpI (allWS_drop l.indent 2 hind))

lemma processMergeF_good (md : List Char → Except MergeErr (List YamlLine)) (fs : FS)
    (bd cwd : List Char) (ref : FileRef) (pI : List Char) (ms : List YamlLine)
    (hmd : ∀ p out, md p = .ok out → ∀ x ∈ out, GoodL x)
    (hpI : allWS pI = true)
    (h : processMergeF md fs bd cwd ref pI = .ok ms) :
    ∀ x ∈ ms, GoodL x := by
  unfold processMergeF at h
  cases hres : resolveFilePath fs bd cwd ref.path with
  | error e => rw [hres] at h; simp at h
  | ok rp =>
    rw [hres] at h
    simp only [] at h
    cases hsub : md rp with
    | error e => rw [hsub] at h; simp at h
    | ok subLines =>
      rw [hsub] at h
      simp only [Except.ok.injEq] at h
      subst h
      intro x hx
      obtain ⟨y, hy, hxy⟩ := List.mem_map.mp hx
      have hgsub : ∀ z ∈ subLines, GoodL z := hmd rp subLines hsub
      have hymerged : y ∈ (if sectionTruthy ref.sect = true then
          extractSection subLines (ref.sect.getD []) else subLines) →
          y ∈ subLines := by
        intro hm
        by_cases ht : sectionTruthy ref.sect = true
        · rw [if_pos ht] at hm
          exact extractSection_subset subLines _ y hm
        · rwa [if_neg ht] at hm
      have hy2 : y ∈ subLines := by
        by_cases hcap : sectionCap ref.sect = true
        · rw [if_pos hcap] at hy
          exact hymerged (collapseBlankRuns_subset _ false y hy)
        · rw [if_neg hcap] at hy
          exact hymerged (dropInteriorBlanks_subset _ y hy)
      exact hxy ▸ reindent_good ref.sect pI y (hgsub y hy2) hpI

lemma mergeLoopF_good (f : FileRef → List Char → Except MergeErr (List YamlLine))
    (hf : ∀ ref pI out, allWS pI = true → f ref pI = .ok out → ∀ x ∈ out, GoodL x) :
    ∀ (ls : List YamlLine) (b : Bool) (out : List YamlLine),
      (∀ l ∈ ls, ∃ r, l = mkYamlLine r) →
      mergeLoopF f b ls = .ok out → ∀ x ∈ out, GoodL x := by
  intro ls
  induction ls with
  | nil =>
    intro b out _ hout
    cases b <;> (simp only [mergeLoopF, Except.ok.injEq] at hout; subst hout; intro x hx; simp at hx)
  | cons l rest ih =>
    intro b out hin hout
    obtain ⟨r, hr⟩ := hin l (List.mem_cons_self l rest)
    have hintail : ∀ x ∈ rest, ∃ r, x = mkYamlLine r :=
      fun x hx => hin x (List.mem_cons_of_mem l hx)
    unfold mergeLoopF at hout
    by_cases he : l.isEmpty = true
    · rw [if_pos he] at hout
      by_cases hb : b = true
      · rw [if_pos hb] at hout
        exact ih true out hintail hout
      · rw [if_neg hb] at hout
        cases hrec : mergeLoopF f true rest with
        | error e => rw [hrec] at hout; simp at hout
        | ok out' =>
          rw [hrec] at hout
          simp only [Except.ok.injEq] at hout
          subst hout
          intro x hx
          rcases List.mem_cons.mp hx with hx | hx
          · subst hx
            subst hr
            exact ⟨rfl, mk_empty_dir r he, mk_indent_ws r⟩
          · exact ih true out' hintail hrec x hx
    · rw [if_neg he] at hout
      by_cases hc : l.isComment = true
      · rw [if_pos hc] at hout
        cases hrec : mergeLoopF f false rest with
        | error e => rw [hrec] at hout; simp at hout
        | ok out' =>
          rw [hrec] at hout
          simp only [Except.ok.injEq] at hout
          subst hout
          intro x hx
          rcases List.mem_cons.mp hx with hx | hx
          · subst hx
            subst hr
            exact ⟨rfl, mk_comment_dir r hc, mk_indent_ws r⟩
          · exact ih false out' hintail hrec x hx
      · rw [if_neg hc] at hout
        by_cases hd : l.isMergeDirective = true
        · rw [if_pos hd] at hout
          cases hp : parseFileReference l.content with
          | some ref =>
            rw [hp] at hout
            simp only [] at hout
            cases hmerged : f ref l.indent with
            | error e => rw [hmerged] at hout; simp at hout
            | ok merged =>
              rw [hmerged] at hout
              cases hrec : mergeLoopF f false rest with
              | error e => rw [hrec] at hout; simp at hout
              | ok out' =>
                rw [hrec] at hout
                simp only [Except.ok.injEq] at hout
                subst hout
                intro x hx
                rcases List.mem_append.mp hx with hx | hx
                · have hws : allWS l.indent = true := by
                    subst hr
                    exact mk_indent_ws r
                  exact hf ref l.indent merged hws hmerged x hx
                · exact ih false out' hintail hrec x hx
          | none =>
            rw [hp] at hout
            simp only [] at hout
            exact ih false out hintail hout
        · rw [if_neg hd] at hout
          cases hrec : mergeLoopF f false rest with
          | error e => rw [hrec] at hout; simp at hout
          | ok out' =>
            rw [hrec] at hout
            simp only [Except.ok.injEq] at hout
            subst hout
            intro x hx
            rcases List.mem_cons.mp hx with hx | hx
            · subst hx
              refine ⟨?_, ?_, ?_⟩
              · subst hr; rfl
              · simpa using hd
              · subst hr; exact mk_indent_ws r
            · exact ih false out' hintail hrec x hx

lemma mergeDoc_good :
    ∀ (fuel : Nat) (yamlOk : YamlOk) (fs : FS) (cwd path : List Char) (out : List YamlLine),
      mergeDoc fuel yamlOk fs cwd path = .ok out → ∀ x ∈ out, GoodL x := by
  intro fuel
  induction fuel with
  | zero => intro yamlOk fs cwd path out hout; simp [mergeDoc] at hout
  | succ n ihn =>
    intro yamlOk fs cwd path out hout
    unfold mergeDoc at hout
    simp only [List.contains, List.elem_nil, Bool.false_eq_true, if_false] at hout
    cases hfs : fs path with
    | none => rw [hfs] at hout; simp at hout
    | some content =>
      rw [hfs] at hout
      simp only [] at hout
      by_cases hy : yamlOk content = true
      · rw [if_pos hy] at hout
        refine mergeLoopF_good _ ?_ (parseLines content) false out ?_ hout
        · intro ref pI ms hws hok
          exact processMergeF_good (mergeDoc n yamlOk fs cwd) fs (dirname path) cwd ref pI ms
            (fun p out2 h2 => ihn yamlOk fs cwd p out2 h2) hws hok
        · intro l hl
          obtain ⟨r, _, hr⟩ := List.mem_map.mp hl
          exact ⟨r, hr.symm⟩
      · rw [if_neg hy] at hout
        simp at hout

/-- C1: whenever `merge()` completes successfully, no line of the
resulting sequence is a merge directive — input lines that survive are
empties, comments or non-directives (none of which carry the flag), and
spliced lines come from recursively merged child documents, whose lines
satisfy the same invariant and keep it through extraction, blank
filtering and reindent cloning. -/
theorem merged_lines_directive_free (fuel : Nat) (yamlOk : YamlOk) (fs : FS)
    (cwd path : List Char)
    (out : List YamlLine) (h : mergeDoc fuel yamlOk fs cwd path = .ok out) :
    ∀ l ∈ out, l.isMergeDirective = false :=
  fun l hl => (mergeDoc_good fuel yamlOk fs cwd path out h l hl).2.1

theorem merged_lines_directive_free_witness :
    (clone (mkYamlLine (("x: 1").toList)) (some ((("  ").toList) ++ twoSpaces 0))).isMergeDirective
      = false :=
  merged_lines_directive_free 2 yamlOkAll fsHost cwd0 (("/host").toList)
    [mkYamlLine (("p:").toList),
      clone (mkYamlLine (("x: 1").toList)) (some ((("  ").toList) ++ twoSpaces 0))]
    (by rfl)
    (clone (mkYamlLine (("x: 1").toList)) (some ((("  ").toList) ++ twoSpaces 0)))
    (by simp)
